import Mathlib

/-!
Shallow embedding of `echo4http/server.py` (an HTTP echo server) and of the
pieces of the Python standard library its request handler calls
(`urllib.parse.urlparse`, `urllib.parse.parse_qs`, `dict` built from an
`email.message.Message`, `str.lower`, `int(...)`, strict UTF-8 decoding).

Strings that travel through the handler are modelled as byte sequences
(`List Nat`, each element `< 256`): the request line and headers are decoded
by CPython's `http` machinery as ISO-8859-1, so each Python character is one
byte.  Values produced by percent-decoding are kept as the decoded byte
sequence; CPython additionally re-decodes those byte runs as UTF-8 with
`errors='replace'`, a step the claims do not depend on, so values here are
compared at the byte level.  The request body, which the handler decodes
strictly (`bytes.decode('utf-8')`), is modelled with a full strict UTF-8
decoder returning the sequence of code points.
-/

namespace Echo4Http

/-- A byte string: each element is a byte (0..255). -/
abbrev ByteStr := List Nat

/-- Build a byte string from an ASCII Lean string literal. -/
def bs (s : String) : ByteStr := s.data.map Char.toNat

/-- `str.lower` for a single ISO-8859-1 code point: ASCII `A`-`Z` and the
Latin-1 uppercase letters `À`-`Þ` (except `×`) map down by 32; everything
else in the 0..255 range is fixed by Python's `str.lower`. -/
def pyLower (b : Nat) : Nat :=
  if (65 ≤ b ∧ b ≤ 90) ∨ (192 ≤ b ∧ b ≤ 222 ∧ b ≠ 215) then b + 32 else b

/-- Python `s.split(sep)` for a one-character separator: returns the list of
(possibly empty) chunks; `"".split(sep) = [""]`. -/
def splitOnAll (sep : Nat) : ByteStr → List ByteStr
  | [] => [[]]
  | b :: t =>
    if b = sep then [] :: splitOnAll sep t
    else
      match splitOnAll sep t with
      | h :: r => (b :: h) :: r
      | [] => [[b]]

/-- Python `s.split(sep, 1)` for a one-character separator: the part before
the first occurrence, and `some` rest after it (or `none` if absent). -/
def splitOnFirst (sep : Nat) : ByteStr → ByteStr × Option ByteStr
  | [] => ([], none)
  | b :: t =>
    if b = sep then ([], some t)
    else (b :: (splitOnFirst sep t).1, (splitOnFirst sep t).2)

/-- ASCII decimal digit test. -/
def isDigit (b : Nat) : Bool := 48 ≤ b ∧ b ≤ 57

/-- ASCII hexadecimal digit test (`string.hexdigits`). -/
def isHexDigit (b : Nat) : Bool :=
  (48 ≤ b ∧ b ≤ 57) ∨ (97 ≤ b ∧ b ≤ 102) ∨ (65 ≤ b ∧ b ≤ 70)

/-- Numeric value of an ASCII hexadecimal digit. -/
def hexVal (b : Nat) : Nat :=
  if b ≤ 57 then b - 48 else if b ≤ 70 then b - 55 else b - 87

/-- `urllib.parse.unquote`, at the byte level: every valid `%XX` escape is
replaced by the byte it denotes; a `%` not followed by two hex digits is kept
literally (as CPython's split-on-`%` loop does). -/
def pctDecode : ByteStr → ByteStr
  | [] => []
  | 37 :: a :: b :: t =>
    if isHexDigit a ∧ isHexDigit b then (hexVal a * 16 + hexVal b) :: pctDecode t
    else 37 :: pctDecode (a :: b :: t)
  | 37 :: t => 37 :: pctDecode t
  | c :: t => c :: pctDecode t

/-- `s.replace('+', ' ')` followed by `unquote`, as `parse_qsl` applies to
each name and value (`+` is byte 43, space is byte 32). -/
def pyUnquotePlus (s : ByteStr) : ByteStr :=
  pctDecode (s.map fun b => if b = 43 then 32 else b)

/-- One chunk of the `parse_qsl` loop body (defaults: `keep_blank_values =
False`, `strict_parsing = False`): an empty chunk, a chunk without `=`
(byte 61), and a chunk whose value part is empty are all dropped; otherwise
the `+`/percent-decoded (name, value) pair is produced. -/
def parseQsChunk (chunk : ByteStr) : Option (ByteStr × ByteStr) :=
  if chunk = [] then none
  else
    match splitOnFirst 61 chunk with
    | (_, none) => none
    | (name, some value) =>
      if value = [] then none
      else some (pyUnquotePlus name, pyUnquotePlus value)

/-- `urllib.parse.parse_qsl(qs)` with the default arguments (separator `&`,
byte 38). -/
def pyParseQsl (qs : ByteStr) : List (ByteStr × ByteStr) :=
  if qs = [] then [] else (splitOnAll 38 qs).filterMap parseQsChunk

/-- Append one `(name, value)` pair to the accumulating `parse_qs`
dictionary: `parsed_result[name].append(value)` if present,
`parsed_result[name] = [value]` otherwise. -/
def qsAddPair (d : List (ByteStr × List ByteStr)) (k : ByteStr) (v : ByteStr) :
    List (ByteStr × List ByteStr) :=
  match d with
  | [] => [(k, [v])]
  | (k', vs) :: rest =>
    if k' = k then (k', vs ++ [v]) :: rest else (k', vs) :: qsAddPair rest k v

/-- `urllib.parse.parse_qs(qs)` with the default arguments: the pairs of
`parse_qsl` grouped into an insertion-ordered dictionary of value lists. -/
def pyParseQs (qs : ByteStr) : List (ByteStr × List ByteStr) :=
  (pyParseQsl qs).foldl (fun d p => qsAddPair d p.1 p.2) []

/-- A query-parameter value after line 97 of `server.py`: either a single
string or a list of strings. -/
inductive QPVal where
  | single (v : ByteStr)
  | multi (vs : List ByteStr)
  deriving Repr, DecidableEq

/-- `v[0] if len(v) == 1 else v` of line 97 of `server.py`. -/
def collapseVal (vs : List ByteStr) : QPVal :=
  match vs with
  | [v] => QPVal.single v
  | vs => QPVal.multi vs

/-- Line 97 of `server.py`:
`{k: v[0] if len(v) == 1 else v for k, v in query_params.items()}`. -/
def collapseQP (d : List (ByteStr × List ByteStr)) : List (ByteStr × QPVal) :=
  d.map fun p => (p.1, collapseVal p.2)

/-- The result of `urllib.parse.urlsplit`. -/
structure SplitResult where
  scheme : ByteStr
  netloc : ByteStr
  path : ByteStr
  query : ByteStr
  fragment : ByteStr
  deriving Repr, DecidableEq

/-- The result of `urllib.parse.urlparse` (`urlsplit` plus the `;params`
component split off the last path segment). -/
structure ParseResult where
  scheme : ByteStr
  netloc : ByteStr
  path : ByteStr
  params : ByteStr
  query : ByteStr
  fragment : ByteStr
  deriving Repr, DecidableEq

/-- A character allowed in a URL scheme (`urllib.parse.scheme_chars`):
ASCII letters, digits, `+`, `-`, `.`. -/
def schemeChar (b : Nat) : Bool :=
  (97 ≤ b ∧ b ≤ 122) ∨ (65 ≤ b ∧ b ≤ 90) ∨ (48 ≤ b ∧ b ≤ 57) ∨
    b = 43 ∨ b = 45 ∨ b = 46

/-- ASCII letter test (`url[0].isascii() and url[0].isalpha()` for a byte). -/
def isAsciiAlpha (b : Nat) : Bool := (97 ≤ b ∧ b ≤ 122) ∨ (65 ≤ b ∧ b ≤ 90)

/-- The scheme-splitting step of `urlsplit`: if the text before the first `:`
(byte 58) is a non-empty run of scheme characters starting with an ASCII
letter, it is the (lower-cased) scheme and the rest follows the colon. -/
def splitScheme (url : ByteStr) : ByteStr × ByteStr :=
  match url.findIdx? (· == 58) with
  | some i =>
    if 0 < i ∧ (url.take i).all schemeChar ∧ isAsciiAlpha (url.headD 0) then
      ((url.take i).map pyLower, url.drop (i + 1))
    else ([], url)
  | none => ([], url)

/-- `urllib.parse._splitnetloc(url, 2)`: the netloc runs from index 2 up to
the first `/`, `?` or `#`. -/
def splitNetloc (url : ByteStr) : ByteStr × ByteStr :=
  let rest := url.drop 2
  (rest.takeWhile fun b => b ≠ 47 ∧ b ≠ 63 ∧ b ≠ 35,
   rest.dropWhile fun b => b ≠ 47 ∧ b ≠ 63 ∧ b ≠ 35)

/-- `urllib.parse.urlsplit(url)` (default `scheme=''`,
`allow_fragments=True`), for ISO-8859-1 byte input.  Tab, CR and LF bytes
are removed first (`_UNSAFE_URL_BYTES_TO_REMOVE`); a netloc containing `[`
without `]` (or vice versa) raises `ValueError` (`Except.error`).  CPython's
`_checknetloc` NFKC check is a no-op for byte input in the 0..255 range and
is omitted. -/
def pyUrlsplit (url0 : ByteStr) : Except Unit SplitResult :=
  let url1 := url0.filter fun b => b ≠ 9 ∧ b ≠ 13 ∧ b ≠ 10
  let sp := splitScheme url1
  let np := if sp.2.take 2 = [47, 47] then splitNetloc sp.2 else ([], sp.2)
  if (91 ∈ np.1 ∧ 93 ∉ np.1) ∨ (93 ∈ np.1 ∧ 91 ∉ np.1) then
    Except.error ()
  else
    let fp := splitOnFirst 35 np.2
    let qp := splitOnFirst 63 fp.1
    Except.ok ⟨sp.1, np.1, qp.1, qp.2.getD [], fp.2.getD []⟩

/-- The schemes whose URLs may carry `;parameters` on the last path segment
(`urllib.parse.uses_params`); the empty scheme is among them. -/
def usesParams : List ByteStr :=
  [bs "", bs "ftp", bs "hdl", bs "prospero", bs "http", bs "imap",
   bs "https", bs "shttp", bs "rtsp", bs "rtspu", bs "sip", bs "sips",
   bs "mms", bs "sftp", bs "tel"]

/-- `urllib.parse._splitparams(url)`: split at the first `;` (byte 59) at or
after the last `/` (byte 47); if the path has no `/`, at the first `;`. -/
def splitParams (url : ByteStr) : ByteStr × ByteStr :=
  match url.reverse.findIdx? (· == 47) with
  | some ri =>
    let slashIdx := url.length - 1 - ri
    match ((url.drop slashIdx).findIdx? (· == 59)).map (· + slashIdx) with
    | some i => (url.take i, url.drop (i + 1))
    | none => (url, [])
  | none =>
    match url.findIdx? (· == 59) with
    | some i => (url.take i, url.drop (i + 1))
    | none => (url, [])

/-- `urllib.parse.urlparse(url)` (default arguments). -/
def pyUrlparse (url0 : ByteStr) : Except Unit ParseResult :=
  match pyUrlsplit url0 with
  | .error e => .error e
  | .ok s =>
    let pp :=
      if s.scheme ∈ usesParams ∧ 59 ∈ s.path then splitParams s.path
      else (s.path, [])
    .ok ⟨s.scheme, s.netloc, pp.1, pp.2, s.query, s.fragment⟩

/-- First-match lookup in an association list, i.e. Python `dict` access
for dictionaries represented with their (unique-keyed) insertion order. -/
def dictGet {β : Type} (d : List (ByteStr × β)) (k : ByteStr) : Option β :=
  match d with
  | [] => none
  | (k', v) :: rest => if k' = k then some v else dictGet rest k

/-- Python `dict` assignment `d[k] = v`: update the value in place if the
key is present (keeping its position), append otherwise. -/
def dictInsert {β : Type} (d : List (ByteStr × β)) (k : ByteStr) (v : β) :
    List (ByteStr × β) :=
  match d with
  | [] => [(k, v)]
  | (k', v') :: rest =>
    if k' = k then (k', v) :: rest else (k', v') :: dictInsert rest k v

/-- `email.message.Message.get(name)`: the value of the first stored header
whose name equals `name` case-insensitively (`str.lower` on both sides). -/
def msgGet (hs : List (ByteStr × ByteStr)) (name : ByteStr) : Option ByteStr :=
  (hs.find? fun p => p.1.map pyLower == name.map pyLower).map (·.2)

/-- `dict(self.headers)` for an `http.client.HTTPMessage`: the `dict`
constructor iterates `keys()` (every stored header name, duplicates
included) and fetches each with `__getitem__`, which returns the *first*
case-insensitive match. -/
def pyDictOfMessage (hs : List (ByteStr × ByteStr)) : List (ByteStr × ByteStr) :=
  hs.foldl (fun d p => dictInsert d p.1 ((msgGet hs p.1).getD [])) []

/-- Line 101 of `server.py`:
`{header.lower(): value for header, value in dict(self.headers).items()}`. -/
def lowerDict (d : List (ByteStr × ByteStr)) : List (ByteStr × ByteStr) :=
  d.foldl (fun acc p => dictInsert acc (p.1.map pyLower) p.2) []

/-- Whitespace stripped by Python `int(str)` (`Py_UNICODE_ISSPACE`),
restricted to the 0..255 range: tab, LF, VT, FF, CR, 28-31, space, NEL
(0x85) and NBSP (0xA0). -/
def isPySpace (b : Nat) : Bool :=
  (9 ≤ b ∧ b ≤ 13) ∨ (28 ≤ b ∧ b ≤ 31) ∨ b = 32 ∨ b = 133 ∨ b = 160

/-- The tail of an `int()` literal after its first digit: digits, with
single underscores (byte 95) allowed only between digits. -/
def intDigitsRest : ByteStr → Option ByteStr
  | [] => some []
  | b :: t =>
    if b = 95 then
      match t with
      | b2 :: t2 => if isDigit b2 then (intDigitsRest t2).map (b2 :: ·) else none
      | [] => none
    else if isDigit b then (intDigitsRest t).map (b :: ·) else none

/-- The digit part of an `int()` literal: non-empty, starting with a digit,
underscores only between digits; returns the digits with underscores
removed. -/
def intDigits : ByteStr → Option ByteStr
  | [] => none
  | b :: t => if isDigit b then (intDigitsRest t).map (b :: ·) else none

/-- Numeric value of a string of ASCII digit bytes. -/
def decValue (ds : ByteStr) : Nat := ds.foldl (fun acc d => acc * 10 + (d - 48)) 0

/-- The whitespace stripping `int(s)` performs on both ends of its
argument. -/
def pyIntStrip (s : ByteStr) : ByteStr :=
  ((s.dropWhile isPySpace).reverse.dropWhile isPySpace).reverse

/-- Python `int(s)` for a string in the 0..255 character range: strip
whitespace on both ends, an optional sign, then a decimal literal;
`none` models the `ValueError` raised on anything else. -/
def pyInt (s : ByteStr) : Option Int :=
  match pyIntStrip s with
  | [] => none
  | b :: r =>
    if b = 43 then (intDigits r).map fun ds => (decValue ds : Int)
    else if b = 45 then (intDigits r).map fun ds => -(decValue ds : Int)
    else (intDigits (b :: r)).map fun ds => (decValue ds : Int)

/-- Little-endian decimal digit bytes of `n`, driven by a step count that
only makes the recursion structural (any count at least `n` is enough). -/
def natToDecAux : Nat → Nat → List Nat
  | 0, _ => []
  | _ + 1, 0 => []
  | fuel + 1, n + 1 => ((n + 1) % 10 + 48) :: natToDecAux fuel ((n + 1) / 10)

/-- The decimal representation of a natural number, as ASCII digit bytes. -/
def natToDec (n : Nat) : ByteStr :=
  if n = 0 then [48] else (natToDecAux n n).reverse

/-- UTF-8 encoding of one Unicode code point. -/
def utf8EncodeChar (c : Nat) : List Nat :=
  if c < 128 then [c]
  else if c < 2048 then [192 + c / 64, 128 + c % 64]
  else if c < 65536 then [224 + c / 4096, 128 + (c / 64) % 64, 128 + c % 64]
  else [240 + c / 262144, 128 + (c / 4096) % 64, 128 + (c / 64) % 64,
        128 + c % 64]

/-- UTF-8 encoding of a Lean string (Lean `Char`s are exactly the Unicode
scalar values, so this is Python's `s.encode('utf-8')`). -/
def utf8Encode (s : String) : List Nat := s.data.flatMap fun c => utf8EncodeChar c.toNat

/-- UTF-8 continuation byte test. -/
def isCont (b : Nat) : Bool := 128 ≤ b ∧ b ≤ 191

/-- One step of strict UTF-8 decoding: given the lead byte `b` and the
remaining bytes `t`, return the decoded code point and the bytes after its
sequence, or `none` for any invalid, truncated, overlong, surrogate or
out-of-range sequence (lead bytes `0xC0`/`0xC1` and `> 0xF4` are rejected
outright, matching the strict decoder's acceptance set). -/
def utf8Step (b : Nat) (t : List Nat) : Option (Nat × List Nat) :=
  if b < 128 then some (b, t)
  else if 194 ≤ b ∧ b ≤ 223 then
    match t with
    | b1 :: t' =>
      if isCont b1 then some ((b - 192) * 64 + (b1 - 128), t') else none
    | _ => none
  else if 224 ≤ b ∧ b ≤ 239 then
    match t with
    | b1 :: b2 :: t' =>
      if isCont b1 ∧ isCont b2 then
        if 2048 ≤ (b - 224) * 4096 + (b1 - 128) * 64 + (b2 - 128) ∧
            ¬(55296 ≤ (b - 224) * 4096 + (b1 - 128) * 64 + (b2 - 128) ∧
              (b - 224) * 4096 + (b1 - 128) * 64 + (b2 - 128) ≤ 57343) then
          some ((b - 224) * 4096 + (b1 - 128) * 64 + (b2 - 128), t')
        else none
      else none
    | _ => none
  else if 240 ≤ b ∧ b ≤ 244 then
    match t with
    | b1 :: b2 :: b3 :: t' =>
      if isCont b1 ∧ isCont b2 ∧ isCont b3 then
        if 65536 ≤ (b - 240) * 262144 + (b1 - 128) * 4096 + (b2 - 128) * 64 +
              (b3 - 128) ∧
            (b - 240) * 262144 + (b1 - 128) * 4096 + (b2 - 128) * 64 +
              (b3 - 128) ≤ 1114111 then
          some ((b - 240) * 262144 + (b1 - 128) * 4096 + (b2 - 128) * 64 +
            (b3 - 128), t')
        else none
      else none
    | _ => none
  else none

theorem utf8Step_rest {b : Nat} {t : List Nat} {cr : Nat × List Nat}
    (h : utf8Step b t = some cr) : cr.2.length ≤ t.length := by
  rw [utf8Step.eq_def] at h
  by_cases h1 : b < 128
  · rw [if_pos h1] at h
    rw [← Option.some.inj h]
  · rw [if_neg h1] at h
    by_cases h2 : 194 ≤ b ∧ b ≤ 223
    · rw [if_pos h2] at h
      cases t with
      | nil => exact Option.noConfusion h
      | cons b1 t' =>
        dsimp only at h
        by_cases hc : isCont b1 = true
        · rw [if_pos hc] at h
          rw [← Option.some.inj h]
          simp
        · rw [if_neg hc] at h
          exact Option.noConfusion h
    · rw [if_neg h2] at h
      by_cases h3 : 224 ≤ b ∧ b ≤ 239
      · rw [if_pos h3] at h
        match t with
        | [] => exact Option.noConfusion h
        | [b1] => exact Option.noConfusion h
        | b1 :: b2 :: t' =>
          dsimp only at h
          by_cases hc : (isCont b1 = true ∧ isCont b2 = true)
          · rw [if_pos hc] at h
            by_cases hr : (2048 ≤ (b - 224) * 4096 + (b1 - 128) * 64 +
                (b2 - 128) ∧ ¬(55296 ≤ (b - 224) * 4096 + (b1 - 128) * 64 +
                  (b2 - 128) ∧ (b - 224) * 4096 + (b1 - 128) * 64 +
                  (b2 - 128) ≤ 57343))
            · rw [if_pos hr] at h
              rw [← Option.some.inj h]
              simp
              omega
            · rw [if_neg hr] at h
              exact Option.noConfusion h
          · rw [if_neg hc] at h
            exact Option.noConfusion h
      · rw [if_neg h3] at h
        by_cases h4 : 240 ≤ b ∧ b ≤ 244
        · rw [if_pos h4] at h
          match t with
          | [] => exact Option.noConfusion h
          | [b1] => exact Option.noConfusion h
          | [b1, b2] => exact Option.noConfusion h
          | b1 :: b2 :: b3 :: t' =>
            dsimp only at h
            by_cases hc : (isCont b1 = true ∧ isCont b2 = true ∧
                isCont b3 = true)
            · rw [if_pos hc] at h
              by_cases hr : (65536 ≤ (b - 240) * 262144 + (b1 - 128) * 4096 +
                  (b2 - 128) * 64 + (b3 - 128) ∧ (b - 240) * 262144 +
                  (b1 - 128) * 4096 + (b2 - 128) * 64 + (b3 - 128) ≤ 1114111)
              · rw [if_pos hr] at h
                rw [← Option.some.inj h]
                simp
                omega
              · rw [if_neg hr] at h
                exact Option.noConfusion h
            · rw [if_neg hc] at h
              exact Option.noConfusion h
        · rw [if_neg h4] at h
          exact Option.noConfusion h

/-- Strict UTF-8 decoding, driven by a step-count that only serves to make
the recursion structural; each step consumes at least one byte, so any
count at least the length of the input gives the decoder's value. -/
def utf8DecodeF : Nat → List Nat → Option (List Nat)
  | _, [] => some []
  | 0, _ :: _ => none
  | fuel + 1, b :: t =>
    match utf8Step b t with
    | some cr => (utf8DecodeF fuel cr.2).map (cr.1 :: ·)
    | none => none

/-- Strict UTF-8 decoding to a list of code points, `none` on any invalid,
overlong, surrogate or out-of-range sequence: Python's
`bytes.decode('utf-8')`, which raises `UnicodeDecodeError` exactly when
this returns `none`. -/
def utf8Decode (l : List Nat) : Option (List Nat) := utf8DecodeF l.length l

theorem utf8DecodeF_fuel {l : List Nat} {f1 f2 : Nat}
    (h1 : l.length ≤ f1) (h2 : l.length ≤ f2) :
    utf8DecodeF f1 l = utf8DecodeF f2 l := by
  induction f1 generalizing f2 l with
  | zero =>
    cases l with
    | nil => cases f2 <;> rfl
    | cons b t => simp at h1
  | succ f ih =>
    cases l with
    | nil => cases f2 <;> rfl
    | cons b t =>
      cases f2 with
      | zero => simp at h2
      | succ f2x =>
        rw [utf8DecodeF, utf8DecodeF]
        cases hstep : utf8Step b t with
        | none => rfl
        | some cr =>
          have hlen := utf8Step_rest hstep
          simp only [List.length_cons, Nat.succ_le_succ_iff] at h1 h2
          dsimp only
          rw [ih (le_trans hlen h1) (le_trans hlen h2)]

theorem utf8Decode_cons (b : Nat) (t : List Nat) :
    utf8Decode (b :: t) =
      match utf8Step b t with
      | some cr => (utf8Decode cr.2).map (cr.1 :: ·)
      | none => none := by
  rw [utf8Decode, List.length_cons, utf8DecodeF]
  cases hstep : utf8Step b t with
  | none => rfl
  | some cr =>
    show (utf8DecodeF t.length cr.2).map (cr.1 :: ·) =
      (utf8Decode cr.2).map (cr.1 :: ·)
    rw [utf8Decode, utf8DecodeF_fuel (utf8Step_rest hstep) (le_refl _)]

/-- The faults `handle_request` can raise: `ValueError` (from `urlparse` or
`int`) and `UnicodeDecodeError` (from `bytes.decode('utf-8')`).  Either
aborts the handling of the connection before a response is sent. -/
inductive HandlerFault where
  | valueError
  | unicodeDecodeError
  deriving Repr, DecidableEq

/-- One inbound HTTP request as `RequestHandler` sees it: `command` and
`path` from the request line, the parsed header (name, value) pairs of
`self.headers` in arrival order, and the bytes readable from `self.rfile`
after the headers. -/
structure EchoRequest where
  command : ByteStr
  path : ByteStr
  headers : List (ByteStr × ByteStr)
  rfile : List Nat
  deriving Repr, DecidableEq

/-- The response `handle_request` sends: the status passed to
`send_response`, the `Content-type` header, and the fields of the
`request_details` object of the JSON body (`body` as Unicode code
points). -/
structure EchoResponse where
  status : Nat
  contentType : ByteStr
  method : ByteStr
  endpoint : ByteStr
  queryParams : List (ByteStr × QPVal)
  headers : List (ByteStr × ByteStr)
  body : List Nat
  deriving Repr, DecidableEq

/-- `content_length = int(headers.get('content-length', 0))` (line 104 of
`server.py`): `none` models the `ValueError` when the header value is not an
integer literal. -/
def contentLengthOf (headers : List (ByteStr × ByteStr)) : Option Int :=
  match dictGet headers (bs "content-length") with
  | some v => pyInt v
  | none => some 0

/-- `RequestHandler.handle_request` (lines 90-128 of `server.py`): parse the
URL, collapse the query parameters, lower-case the header names, read and
strictly UTF-8-decode `Content-Length` bytes of body, and answer 200 with
the echoed request details.  A `ValueError` from `urlparse` or `int`, or a
`UnicodeDecodeError` from `decode('utf-8')`, propagates out unhandled
(`Except.error`) and no response is sent. -/
def handle_request (req : EchoRequest) : Except HandlerFault EchoResponse :=
  match pyUrlparse req.path with
  | .error _ => .error HandlerFault.valueError
  | .ok parsed =>
    match contentLengthOf (lowerDict (pyDictOfMessage req.headers)) with
    | none => .error HandlerFault.valueError
    | some contentLength =>
      if 0 < contentLength then
        match utf8Decode (req.rfile.take contentLength.toNat) with
        | none => .error HandlerFault.unicodeDecodeError
        | some cps =>
          .ok ⟨200, bs "application/json", req.command, parsed.path,
            collapseQP (pyParseQs parsed.query),
            lowerDict (pyDictOfMessage req.headers), cps⟩
      else
        .ok ⟨200, bs "application/json", req.command, parsed.path,
          collapseQP (pyParseQs parsed.query),
          lowerDict (pyDictOfMessage req.headers), []⟩

/-- The serving loop of `HTTPServer.serve_forever` over a sequence of
connections: each is handled independently; a handler fault aborts only
that connection (`socketserver` catches it via `handle_error`), yielding
no response, and the loop continues with the next connection. -/
def serveSequential (reqs : List EchoRequest) : List (Option EchoResponse) :=
  reqs.map fun r => (handle_request r).toOption

/-- The outcome of `sock.connect_ex((host, port))` inside `check_port`:
either the C-level `connect` result (errno, `0` meaning success; connection
refused and timeouts yield a non-zero code) or a raised socket-level
exception (`socket.error`, `socket.timeout`, `socket.herror`,
`socket.gaierror`, e.g. name-resolution failure). -/
inductive ProbeOutcome where
  | result (errno : Nat)
  | raised
  deriving Repr, DecidableEq

/-- What a `check_port` call did: the boolean it returned and whether it
logged a socket error. -/
structure CheckPortRun where
  value : Bool
  loggedError : Bool
  deriving Repr, DecidableEq

/-- `check_port` (lines 137-155 of `server.py`), as a function of the probe
outcome: `connect_ex` result `0` returns `True`; any other result returns
`False`; a raised socket-level exception is caught, logged, and `False` is
returned. -/
def check_port (o : ProbeOutcome) : CheckPortRun :=
  match o with
  | .result errno => ⟨errno == 0, false⟩
  | .raised => ⟨false, true⟩

/-- What the `__main__` block does after the port check. -/
inductive StartupAction where
  | serve (port : Nat)
  | logErrorAndExit (code : Nat)
  deriving Repr, DecidableEq

/-- Lines 189-193 of `server.py`: start the server if `check_port` reported
the port free, otherwise log an error and `sys.exit(1)`. -/
def mainStartup (port : Nat) (portInUse : Bool) : StartupAction :=
  if !portInUse then .serve port else .logErrorAndExit 1

/-- Folding `dictInsert` over a list of pairs: the shape shared by the two
dictionary-building comprehensions of `server.py`. -/
def dInsertAll {β : Type} (init ps : List (ByteStr × β)) : List (ByteStr × β) :=
  ps.foldl (fun d p => dictInsert d p.1 p.2) init

/-- The value of the last pair with key `k`, if any. -/
def lastValue {β : Type} (ps : List (ByteStr × β)) (k : ByteStr) : Option β :=
  match ps with
  | [] => none
  | p :: t =>
    match lastValue t k with
    | some v => some v
    | none => if p.1 = k then some p.2 else none

theorem dictGet_dictInsert {β : Type} (d : List (ByteStr × β)) (k k2 : ByteStr)
    (v : β) :
    dictGet (dictInsert d k v) k2 = if k = k2 then some v else dictGet d k2 := by
  induction d with
  | nil => simp [dictInsert, dictGet]
  | cons p rest ih =>
    obtain ⟨k', v'⟩ := p
    simp only [dictInsert]
    by_cases h : k' = k
    · subst h
      simp only [if_pos rfl, dictGet]
      by_cases h2 : k' = k2 <;> simp [h2]
    · simp only [if_neg h, dictGet, ih]
      by_cases h2 : k' = k2
      · subst h2
        have hk : ¬k = k' := fun hh => h hh.symm
        simp [hk]
      · simp [h2]

theorem mem_dictInsert {β : Type} {d : List (ByteStr × β)} {k : ByteStr}
    {v : β} {q : ByteStr × β} (hq : q ∈ dictInsert d k v) :
    q = (k, v) ∨ q ∈ d := by
  induction d with
  | nil => simpa [dictInsert] using hq
  | cons p rest ih =>
    obtain ⟨k', v'⟩ := p
    simp only [dictInsert] at hq
    by_cases h : k' = k
    · subst h
      rw [if_pos rfl] at hq
      rcases List.mem_cons.mp hq with h1 | h2
      · exact Or.inl h1
      · exact Or.inr (List.mem_cons_of_mem _ h2)
    · rw [if_neg h] at hq
      rcases List.mem_cons.mp hq with h1 | h2
      · exact Or.inr (by rw [h1]; exact List.mem_cons_self _ _)
      · rcases ih h2 with h3 | h4
        · exact Or.inl h3
        · exact Or.inr (List.mem_cons_of_mem _ h4)

theorem mem_keys_dictInsert {β : Type} (d : List (ByteStr × β)) (k a : ByteStr)
    (v : β) :
    a ∈ (dictInsert d k v).map Prod.fst ↔ a = k ∨ a ∈ d.map Prod.fst := by
  induction d with
  | nil => simp [dictInsert]
  | cons p rest ih =>
    obtain ⟨k', v'⟩ := p
    simp only [dictInsert]
    by_cases h : k' = k
    · subst h
      rw [if_pos rfl]
      simp only [List.map_cons, List.mem_cons]
      tauto
    · simp only [if_neg h, List.map_cons, List.mem_cons, ih]
      tauto

theorem nodup_keys_dictInsert {β : Type} (d : List (ByteStr × β))
    (k : ByteStr) (v : β) (hd : (d.map Prod.fst).Nodup) :
    ((dictInsert d k v).map Prod.fst).Nodup := by
  induction d with
  | nil => simp [dictInsert]
  | cons p rest ih =>
    obtain ⟨k', v'⟩ := p
    simp only [List.map_cons, List.nodup_cons] at hd
    simp only [dictInsert]
    by_cases h : k' = k
    · subst h
      rw [if_pos rfl]
      simp only [List.map_cons, List.nodup_cons]
      exact hd
    · simp only [if_neg h, List.map_cons, List.nodup_cons]
      refine ⟨fun hmem => ?_, ih hd.2⟩
      rcases (mem_keys_dictInsert rest k k' v).mp hmem with h1 | h2
      · exact h h1
      · exact hd.1 h2

theorem dictGet_dInsertAll {β : Type} (ps init : List (ByteStr × β))
    (k : ByteStr) :
    dictGet (dInsertAll init ps) k =
      match lastValue ps k with
      | some v => some v
      | none => dictGet init k := by
  induction ps generalizing init with
  | nil => simp [dInsertAll, lastValue]
  | cons p t ih =>
    simp only [dInsertAll, List.foldl_cons]
    rw [show (t.foldl (fun d q => dictInsert d q.1 q.2)
        (dictInsert init p.1 p.2)) = dInsertAll (dictInsert init p.1 p.2) t
      from rfl, ih]
    simp only [lastValue]
    cases h : lastValue t k with
    | some v => simp
    | none =>
      simp only []
      rw [dictGet_dictInsert]
      by_cases hk : p.1 = k <;> simp [hk]

theorem mem_dInsertAll {β : Type} {ps init : List (ByteStr × β)}
    {q : ByteStr × β} (hq : q ∈ dInsertAll init ps) : q ∈ init ∨ q ∈ ps := by
  induction ps generalizing init with
  | nil => exact Or.inl hq
  | cons p t ih =>
    simp only [dInsertAll, List.foldl_cons] at hq
    rcases ih hq with h1 | h2
    · rcases mem_dictInsert h1 with h3 | h4
      · exact Or.inr (h3 ▸ List.mem_cons_self _ _)
      · exact Or.inl h4
    · exact Or.inr (List.mem_cons_of_mem _ h2)

theorem mem_keys_dInsertAll {β : Type} (ps init : List (ByteStr × β))
    (a : ByteStr) :
    a ∈ (dInsertAll init ps).map Prod.fst ↔
      a ∈ init.map Prod.fst ∨ a ∈ ps.map Prod.fst := by
  induction ps generalizing init with
  | nil => simp [dInsertAll]
  | cons p t ih =>
    simp only [dInsertAll, List.foldl_cons]
    rw [show (t.foldl (fun d q => dictInsert d q.1 q.2)
        (dictInsert init p.1 p.2)) = dInsertAll (dictInsert init p.1 p.2) t
      from rfl, ih, mem_keys_dictInsert]
    simp only [List.map_cons, List.mem_cons]
    tauto

theorem nodup_keys_dInsertAll {β : Type} (ps init : List (ByteStr × β))
    (h : (init.map Prod.fst).Nodup) :
    ((dInsertAll init ps).map Prod.fst).Nodup := by
  induction ps generalizing init with
  | nil => exact h
  | cons p t ih =>
    simp only [dInsertAll, List.foldl_cons]
    exact ih _ (nodup_keys_dictInsert init p.1 p.2 h)

theorem lastValue_eq_none_iff {β : Type} (ps : List (ByteStr × β))
    (k : ByteStr) : lastValue ps k = none ↔ ∀ p ∈ ps, p.1 ≠ k := by
  induction ps with
  | nil => simp [lastValue]
  | cons p t ih =>
    simp only [lastValue]
    cases h : lastValue t k with
    | some v =>
      have hne : ¬∀ q ∈ t, q.1 ≠ k := by
        intro hall
        rw [ih.mpr hall] at h
        exact Option.noConfusion h
      constructor
      · intro h'
        exact absurd h' (by simp)
      · intro hall
        exact absurd (fun q hq => hall q (List.mem_cons_of_mem _ hq)) hne
    | none =>
      have ht : ∀ q ∈ t, q.1 ≠ k := ih.mp h
      by_cases hk : p.1 = k
      · constructor
        · intro h'
          rw [if_pos hk] at h'
          exact Option.noConfusion h'
        · intro hall
          exact absurd hk (hall p (List.mem_cons_self _ _))
      · constructor
        · intro _ q hq
          rcases List.mem_cons.mp hq with h1 | h2
          · rw [h1]; exact hk
          · exact ht q h2
        · intro _
          rw [if_neg hk]

theorem lastValue_eq_some {β : Type} {ps : List (ByteStr × β)} {k : ByteStr}
    {v : β} (h : lastValue ps k = some v) : ∃ p ∈ ps, p.1 = k ∧ p.2 = v := by
  induction ps with
  | nil => simp [lastValue] at h
  | cons p t ih =>
    rw [lastValue] at h
    cases h2 : lastValue t k with
    | some v2 =>
      rw [h2] at h
      obtain ⟨q, hq, hqk, hqv⟩ := ih (h2.trans h)
      exact ⟨q, List.mem_cons_of_mem _ hq, hqk, hqv⟩
    | none =>
      rw [h2] at h
      by_cases hk : p.1 = k
      · rw [if_pos hk] at h
        exact ⟨p, List.mem_cons_self _ _, hk, (Option.some.inj h)⟩
      · rw [if_neg hk] at h
        exact Option.noConfusion h

theorem pyDictOfMessage_eq (hs : List (ByteStr × ByteStr)) :
    pyDictOfMessage hs =
      dInsertAll [] (hs.map fun p => (p.1, (msgGet hs p.1).getD [])) := by
  simp [pyDictOfMessage, dInsertAll, List.foldl_map]

theorem lowerDict_eq (d : List (ByteStr × ByteStr)) :
    lowerDict d = dInsertAll [] (d.map fun p => (p.1.map pyLower, p.2)) := by
  simp [lowerDict, dInsertAll, List.foldl_map]

theorem mem_pyDictOfMessage {hs : List (ByteStr × ByteStr)}
    {q : ByteStr × ByteStr} (hq : q ∈ pyDictOfMessage hs) :
    q.2 = (msgGet hs q.1).getD [] ∧ q.1 ∈ hs.map Prod.fst := by
  rw [pyDictOfMessage_eq] at hq
  rcases mem_dInsertAll hq with h1 | h2
  · simp at h1
  · obtain ⟨p, hp, hpq⟩ := List.mem_map.mp h2
    constructor
    · rw [← hpq]
    · rw [← hpq]
      exact List.mem_map.mpr ⟨p, hp, rfl⟩

theorem mem_keys_pyDictOfMessage (hs : List (ByteStr × ByteStr)) (a : ByteStr) :
    a ∈ (pyDictOfMessage hs).map Prod.fst ↔ a ∈ hs.map Prod.fst := by
  rw [pyDictOfMessage_eq, mem_keys_dInsertAll]
  simp [List.map_map, Function.comp]

/-- The flat headers mapping built on line 101 of `server.py`, looked up at
any name `L`: it holds the value of the *first* request header whose
lower-cased name is `L`, and nothing else. -/
theorem headers_dictGet (hs : List (ByteStr × ByteStr)) (L : ByteStr) :
    dictGet (lowerDict (pyDictOfMessage hs)) L =
      (hs.find? fun p => p.1.map pyLower == L).map Prod.snd := by
  rw [lowerDict_eq, dictGet_dInsertAll]
  cases hlv : lastValue
      ((pyDictOfMessage hs).map fun p => (p.1.map pyLower, p.2)) L with
  | none =>
    have hnone := (lastValue_eq_none_iff _ _).mp hlv
    have hno : ∀ p ∈ hs, ¬(p.1.map pyLower == L) = true := by
      intro p hp hbeq
      have hL : p.1.map pyLower = L := by simpa using hbeq
      have hkey : p.1 ∈ (pyDictOfMessage hs).map Prod.fst :=
        (mem_keys_pyDictOfMessage hs p.1).mpr (List.mem_map_of_mem _ hp)
      obtain ⟨q, hq, hq1⟩ := List.mem_map.mp hkey
      have hmm : ((q.1.map pyLower, q.2) : ByteStr × ByteStr) ∈
          (pyDictOfMessage hs).map fun r => (r.1.map pyLower, r.2) :=
        List.mem_map.mpr ⟨q, hq, rfl⟩
      have hneq := hnone _ hmm
      apply hneq
      show q.1.map pyLower = L
      rw [hq1, hL]
    rw [List.find?_eq_none.mpr hno]
    simp [dictGet]
  | some v =>
    obtain ⟨qm, hqm, hqmk, hqmv⟩ := lastValue_eq_some hlv
    obtain ⟨q, hq, hqeq⟩ := List.mem_map.mp hqm
    have hkL : q.1.map pyLower = L := by
      rw [← hqeq] at hqmk
      exact hqmk
    have hv : q.2 = v := by
      rw [← hqeq] at hqmv
      exact hqmv
    obtain ⟨hval, hmem⟩ := mem_pyDictOfMessage hq
    obtain ⟨p0, hp0, hp0k⟩ := List.mem_map.mp hmem
    have hsome : (hs.find? fun p => p.1.map pyLower == L).isSome := by
      rw [List.find?_isSome]
      refine ⟨p0, hp0, ?_⟩
      rw [hp0k, hkL]
      exact beq_self_eq_true L
    obtain ⟨pf, hpf⟩ := Option.isSome_iff_exists.mp hsome
    have hmsg : msgGet hs q.1 = some pf.2 := by
      rw [msgGet, hkL, hpf]
      rfl
    rw [hpf]
    simp only [Option.map_some]
    rw [← hv, hval, hmsg]
    rfl

/-- The names present in the headers mapping of line 101 are exactly the
lower-cased client header names, with no duplicates. -/
theorem headers_keys (hs : List (ByteStr × ByteStr)) :
    ((lowerDict (pyDictOfMessage hs)).map Prod.fst).Nodup ∧
      ∀ L, L ∈ (lowerDict (pyDictOfMessage hs)).map Prod.fst ↔
        ∃ p ∈ hs, p.1.map pyLower = L := by
  constructor
  · rw [lowerDict_eq]
    exact nodup_keys_dInsertAll _ _ (by simp)
  · intro L
    rw [lowerDict_eq, mem_keys_dInsertAll]
    simp only [List.map_nil, List.not_mem_nil, false_or, List.map_map]
    constructor
    · intro h
      obtain ⟨q, hq, hq1⟩ := List.mem_map.mp h
      obtain ⟨_, hqin⟩ := mem_pyDictOfMessage hq
      obtain ⟨p, hp, hpk⟩ := List.mem_map.mp hqin
      refine ⟨p, hp, ?_⟩
      have hq1x : q.1.map pyLower = L := hq1
      rw [hpk]
      exact hq1x
    · rintro ⟨p, hp, hpL⟩
      have hkey : p.1 ∈ (pyDictOfMessage hs).map Prod.fst :=
        (mem_keys_pyDictOfMessage hs p.1).mpr (List.mem_map_of_mem _ hp)
      obtain ⟨q, hq, hq1⟩ := List.mem_map.mp hkey
      refine List.mem_map.mpr ⟨q, hq, ?_⟩
      show q.1.map pyLower = L
      rw [hq1, hpL]

/-- All values carried by key `k` among a list of (name, value) pairs, in
their original order. -/
def valuesOf (ps : List (ByteStr × ByteStr)) (k : ByteStr) : List ByteStr :=
  (ps.filter fun p => p.1 == k).map Prod.snd

theorem valuesOf_nil (k : ByteStr) : valuesOf [] k = [] := rfl

theorem valuesOf_cons (p : ByteStr × ByteStr) (t : List (ByteStr × ByteStr))
    (k : ByteStr) :
    valuesOf (p :: t) k =
      if p.1 = k then p.2 :: valuesOf t k else valuesOf t k := by
  by_cases h : p.1 = k
  · simp [valuesOf, List.filter_cons, h]
  · simp [valuesOf, List.filter_cons, h]

theorem dictGet_qsAddPair (d : List (ByteStr × List ByteStr))
    (k : ByteStr) (v : ByteStr) (k2 : ByteStr) :
    dictGet (qsAddPair d k v) k2 =
      if k = k2 then some ((dictGet d k).getD [] ++ [v]) else dictGet d k2 := by
  induction d with
  | nil =>
    simp only [qsAddPair, dictGet]
    by_cases h : k = k2 <;> simp [h, dictGet]
  | cons p rest ih =>
    obtain ⟨k', vs⟩ := p
    simp only [qsAddPair]
    by_cases h : k' = k
    · subst h
      simp only [if_pos rfl, dictGet]
      by_cases h2 : k' = k2 <;> simp [h2]
    · rw [if_neg h]
      simp only [dictGet, ih]
      by_cases h2 : k' = k2
      · subst h2
        have hk : ¬k = k' := fun hh => h hh.symm
        simp [hk, h]
      · simp [h2, h]

theorem dictGet_qsFold (ps : List (ByteStr × ByteStr))
    (d : List (ByteStr × List ByteStr)) (k : ByteStr) :
    dictGet (ps.foldl (fun d p => qsAddPair d p.1 p.2) d) k =
      if valuesOf ps k = [] then dictGet d k
      else some ((dictGet d k).getD [] ++ valuesOf ps k) := by
  induction ps generalizing d with
  | nil => simp [valuesOf_nil]
  | cons p t ih =>
    rw [List.foldl_cons, ih, valuesOf_cons]
    have hd := dictGet_qsAddPair d p.1 p.2 k
    by_cases hpk : p.1 = k
    · rw [if_pos hpk] at hd
      rw [if_pos hpk, hd, hpk]
      by_cases ht : valuesOf t k = []
      · simp [ht]
      · simp [ht, List.append_assoc]
    · rw [if_neg hpk] at hd
      rw [if_neg hpk, hd]

theorem dictGet_pyParseQs (q k : ByteStr) :
    dictGet (pyParseQs q) k =
      if valuesOf (pyParseQsl q) k = [] then none
      else some (valuesOf (pyParseQsl q) k) := by
  rw [pyParseQs, dictGet_qsFold]
  by_cases h : valuesOf (pyParseQsl q) k = [] <;> simp [h, dictGet]

theorem dictGet_collapseQP (d : List (ByteStr × List ByteStr)) (k : ByteStr) :
    dictGet (collapseQP d) k = (dictGet d k).map collapseVal := by
  induction d with
  | nil => simp [collapseQP, dictGet]
  | cons p t ih =>
    simp only [collapseQP, List.map_cons, dictGet]
    by_cases h : p.1 = k
    · simp [h]
    · simp only [if_neg h]
      exact ih

theorem valuesOf_ne_nil_iff (ps : List (ByteStr × ByteStr)) (k : ByteStr) :
    valuesOf ps k ≠ [] ↔ ∃ p ∈ ps, p.1 = k := by
  induction ps with
  | nil => simp [valuesOf_nil]
  | cons p t ih =>
    rw [valuesOf_cons]
    by_cases h : p.1 = k
    · simp only [if_pos h]
      constructor
      · intro _
        exact ⟨p, List.mem_cons_self _ _, h⟩
      · intro _
        simp
    · simp only [if_neg h, ih, List.mem_cons]
      constructor
      · rintro ⟨q, hq, hqk⟩
        exact ⟨q, Or.inr hq, hqk⟩
      · rintro ⟨q, hq | hq, hqk⟩
        · exact absurd (hq ▸ hqk) h
        · exact ⟨q, hq, hqk⟩

/-- Inversion of a successful run of `handle_request`: the URL must have
parsed, the content length must have parsed, and every response field is
determined by the request. -/
theorem handle_request_ok {req : EchoRequest} {resp : EchoResponse}
    (h : handle_request req = .ok resp) :
    ∃ pr n, pyUrlparse req.path = .ok pr ∧
      contentLengthOf (lowerDict (pyDictOfMessage req.headers)) = some n ∧
      resp.status = 200 ∧ resp.contentType = bs "application/json" ∧
      resp.method = req.command ∧ resp.endpoint = pr.path ∧
      resp.queryParams = collapseQP (pyParseQs pr.query) ∧
      resp.headers = lowerDict (pyDictOfMessage req.headers) ∧
      ((0 < n ∧ utf8Decode (req.rfile.take n.toNat) = some resp.body) ∨
        (¬0 < n ∧ resp.body = [])) := by
  unfold handle_request at h
  split at h
  · exact Except.noConfusion h
  · rename_i pr hup
    split at h
    · exact Except.noConfusion h
    · rename_i n hcl
      split at h
      · rename_i hn
        split at h
        · exact Except.noConfusion h
        · rename_i cps hdec
          have hresp := (Except.ok.inj h).symm
          refine ⟨pr, n, hup, hcl, ?_⟩
          rw [hresp]
          exact ⟨rfl, rfl, rfl, rfl, rfl, rfl, Or.inl ⟨hn, hdec⟩⟩
      · rename_i hn
        have hresp := (Except.ok.inj h).symm
        refine ⟨pr, n, hup, hcl, ?_⟩
        rw [hresp]
        exact ⟨rfl, rfl, rfl, rfl, rfl, rfl, Or.inr ⟨hn, rfl⟩⟩

theorem pyParseQsl_eq (q : ByteStr) :
    pyParseQsl q = (splitOnAll 38 q).filterMap parseQsChunk := by
  rw [pyParseQsl]
  by_cases h : q = []
  · subst h
    simp [splitOnAll, parseQsChunk]
  · rw [if_neg h]

theorem parseQsChunk_eq_some {chunk : ByteStr} {p : ByteStr × ByteStr}
    (h : parseQsChunk chunk = some p) :
    ∃ nm vl, splitOnFirst 61 chunk = (nm, some vl) ∧ vl ≠ [] ∧
      pyUnquotePlus nm = p.1 ∧ pyUnquotePlus vl = p.2 := by
  rw [parseQsChunk] at h
  by_cases hc : chunk = []
  · rw [if_pos hc] at h
    exact Option.noConfusion h
  · rw [if_neg hc] at h
    cases hsp : splitOnFirst 61 chunk with
    | mk nm ov =>
      rw [hsp] at h
      cases ov with
      | none => exact Option.noConfusion h
      | some vl =>
        dsimp only at h
        by_cases hvl : vl = []
        · rw [if_pos hvl] at h
          exact Option.noConfusion h
        · rw [if_neg hvl] at h
          have hp := Option.some.inj h
          exact ⟨nm, vl, rfl, hvl, by rw [← hp], by rw [← hp]⟩

theorem parseQsChunk_some_of (nm vl chunk : ByteStr)
    (h : splitOnFirst 61 chunk = (nm, some vl)) (hvl : vl ≠ []) :
    parseQsChunk chunk = some (pyUnquotePlus nm, pyUnquotePlus vl) := by
  have hc : chunk ≠ [] := by
    intro hc
    rw [hc] at h
    simp [splitOnFirst] at h
  rw [parseQsChunk, if_neg hc, h]
  dsimp only
  rw [if_neg hvl]

/-- C1: for every request, the `query_params` object maps a query-string
name carrying exactly one value to that single string (not a one-element
list), and a name carrying several values to the list of all of them in
their original order; names and values go through `+`/percent decoding
(performed inside `pyParseQsl`). -/
theorem c1_query_param_collapsing {req : EchoRequest} {pr : ParseResult}
    {resp : EchoResponse} (hup : pyUrlparse req.path = .ok pr)
    (hok : handle_request req = .ok resp) (k : ByteStr) :
    (∀ v, valuesOf (pyParseQsl pr.query) k = [v] →
        dictGet resp.queryParams k = some (QPVal.single v)) ∧
      (2 ≤ (valuesOf (pyParseQsl pr.query) k).length →
        dictGet resp.queryParams k =
          some (QPVal.multi (valuesOf (pyParseQsl pr.query) k))) := by
  obtain ⟨pr2, n, hup2, _, _, _, _, _, hqp, _, _⟩ := handle_request_ok hok
  rw [hup2] at hup
  have hpr : pr2 = pr := Except.ok.inj hup
  subst hpr
  rw [hqp, dictGet_collapseQP, dictGet_pyParseQs]
  constructor
  · intro v hv
    rw [hv]
    simp [collapseVal]
  · intro hlen
    have hne : valuesOf (pyParseQsl pr2.query) k ≠ [] := by
      intro h0
      rw [h0] at hlen
      simp at hlen
    rw [if_neg hne]
    cases hvs : valuesOf (pyParseQsl pr2.query) k with
    | nil => exact absurd hvs hne
    | cons a t =>
      cases t with
      | nil =>
        rw [hvs] at hlen
        simp at hlen
      | cons b t2 => simp [collapseVal]

def c1req : EchoRequest := ⟨bs "GET", bs "/u?id=1&id=2&x=7", [], []⟩

def c1pr : ParseResult :=
  (pyUrlparse c1req.path).toOption.getD ⟨[], [], [], [], [], []⟩

def c1resp : EchoResponse :=
  (handle_request c1req).toOption.getD ⟨0, [], [], [], [], [], []⟩

theorem c1_witness :
    dictGet c1resp.queryParams (bs "id") =
        some (QPVal.multi [bs "1", bs "2"]) ∧
      dictGet c1resp.queryParams (bs "x") = some (QPVal.single (bs "7")) := by
  have h1 := @c1_query_param_collapsing c1req c1pr c1resp (by rfl) (by rfl)
  refine ⟨?_, ?_⟩
  · rw [(h1 (bs "id")).2 (by decide)]
    decide
  · exact (h1 (bs "x")).1 (bs "7") (by decide)

/-- C4: every name in the response `headers` object is the lower-cased form
of a name the client sent, every client header name appears lower-cased,
and the mapping is flat (its keys have no duplicates). -/
theorem c4_header_names_lowercased {req : EchoRequest} {resp : EchoResponse}
    (hok : handle_request req = .ok resp) :
    (resp.headers.map Prod.fst).Nodup ∧
      ∀ L, L ∈ resp.headers.map Prod.fst ↔
        ∃ p ∈ req.headers, p.1.map pyLower = L := by
  obtain ⟨pr, n, _, _, _, _, _, _, _, hh, _⟩ := handle_request_ok hok
  rw [hh]
  exact headers_keys req.headers

def c4req : EchoRequest :=
  ⟨bs "GET", bs "/", [(bs "User-Agent", bs "t"), (bs "X-Code", bs "u")], []⟩

def c4resp : EchoResponse :=
  (handle_request c4req).toOption.getD ⟨0, [], [], [], [], [], []⟩

theorem c4_witness :
    (c4resp.headers.map Prod.fst).Nodup ∧
      (bs "user-agent" ∈ c4resp.headers.map Prod.fst ↔
        ∃ p ∈ c4req.headers, p.1.map pyLower = bs "user-agent") := by
  have h := @c4_header_names_lowercased c4req c4resp (by rfl)
  exact ⟨h.1, h.2 (bs "user-agent")⟩

def c8req : EchoRequest :=
  ⟨bs "GET", bs "/", [(bs "X-Test", bs "a"), (bs "X-Test", bs "b")], []⟩

def c8resp : EchoResponse :=
  (handle_request c8req).toOption.getD ⟨0, [], [], [], [], [], []⟩

/-- C8 counterexample: a client sending `X-Test: a` then `X-Test: b` gets
back `x-test` mapped to `"a"`, the FIRST occurrence — not `"b"`, the last
occurrence as the claim states.  (`dict(self.headers)` pairs each name from
`keys()` with `Message.__getitem__`, which returns the first
case-insensitive match.) -/
theorem c8_counterexample :
    handle_request c8req = .ok c8resp ∧
      dictGet c8resp.headers (bs "x-test") = some (bs "a") ∧
      bs "a" ≠ bs "b" := by
  refine ⟨by rfl, by rfl, by decide⟩

/-- C8 (amended): when the client sends the same header name several times,
the `headers` object retains exactly one value for that name, namely the
value of the FIRST occurrence sent (names compared case-insensitively):
looked up at any name `L`, the mapping holds the value of the first request
header whose lower-cased name is `L`. -/
theorem c8_first_occurrence_retained {req : EchoRequest} {resp : EchoResponse}
    (hok : handle_request req = .ok resp) (L : ByteStr) :
    dictGet resp.headers L =
      (req.headers.find? fun p => p.1.map pyLower == L).map Prod.snd := by
  obtain ⟨pr, n, _, _, _, _, _, _, _, hh, _⟩ := handle_request_ok hok
  rw [hh]
  exact headers_dictGet req.headers L

theorem c8_witness :
    dictGet c8resp.headers (bs "x-test") =
      (c8req.headers.find? fun p => p.1.map pyLower == bs "x-test").map
        Prod.snd := by
  exact @c8_first_occurrence_retained c8req c8resp (by rfl) (bs "x-test")

/-- C9: a query-string parameter is present in `query_params` exactly when
some `&`-separated chunk of the query splits at `=` into its (decoded)
name and a NON-EMPTY raw value: chunks with an empty value (`a=`) and bare
names without `=` are silently dropped. -/
theorem c9_empty_values_dropped {req : EchoRequest} {pr : ParseResult}
    {resp : EchoResponse} (hup : pyUrlparse req.path = .ok pr)
    (hok : handle_request req = .ok resp) (k : ByteStr) :
    (dictGet resp.queryParams k).isSome = true ↔
      ∃ chunk ∈ splitOnAll 38 pr.query, ∃ nm vl,
        splitOnFirst 61 chunk = (nm, some vl) ∧ vl ≠ [] ∧
          pyUnquotePlus nm = k := by
  obtain ⟨pr2, n, hup2, _, _, _, _, _, hqp, _, _⟩ := handle_request_ok hok
  rw [hup2] at hup
  have hpr : pr2 = pr := Except.ok.inj hup
  subst hpr
  rw [hqp, dictGet_collapseQP, dictGet_pyParseQs]
  constructor
  · intro hsome
    by_cases hv : valuesOf (pyParseQsl pr2.query) k = []
    · rw [if_pos hv] at hsome
      simp at hsome
    · obtain ⟨p, hp, hpk⟩ := (valuesOf_ne_nil_iff _ _).mp hv
      rw [pyParseQsl_eq] at hp
      obtain ⟨chunk, hchunk, hpc⟩ := List.mem_filterMap.mp hp
      obtain ⟨nm, vl, hsp, hvl, hnm, _⟩ := parseQsChunk_eq_some hpc
      exact ⟨chunk, hchunk, nm, vl, hsp, hvl, by rw [hnm, hpk]⟩
  · rintro ⟨chunk, hchunk, nm, vl, hsp, hvl, hnm⟩
    have hc := parseQsChunk_some_of nm vl chunk hsp hvl
    have hp : (pyUnquotePlus nm, pyUnquotePlus vl) ∈ pyParseQsl pr2.query := by
      rw [pyParseQsl_eq]
      exact List.mem_filterMap.mpr ⟨chunk, hchunk, hc⟩
    have hv : valuesOf (pyParseQsl pr2.query) k ≠ [] := by
      refine (valuesOf_ne_nil_iff _ _).mpr ⟨_, hp, ?_⟩
      exact hnm
    rw [if_neg hv]
    simp

def c9req : EchoRequest := ⟨bs "GET", bs "/u?a=&b=1&c", [], []⟩

def c9pr : ParseResult :=
  (pyUrlparse c9req.path).toOption.getD ⟨[], [], [], [], [], []⟩

def c9resp : EchoResponse :=
  (handle_request c9req).toOption.getD ⟨0, [], [], [], [], [], []⟩

theorem c9_witness :
    (dictGet c9resp.queryParams (bs "b")).isSome = true ∧
      dictGet c9resp.queryParams (bs "a") = none ∧
      dictGet c9resp.queryParams (bs "c") = none := by
  refine ⟨?_, by rfl, by rfl⟩
  exact (@c9_empty_values_dropped c9req c9pr c9resp (by rfl) (by rfl)
    (bs "b")).mpr
    ⟨bs "b=1", by decide, bs "b", bs "1", by decide, by decide, by decide⟩

/-- C5: `check_port` returns `True` exactly when the TCP probe
(`connect_ex` under the 1-second timeout) reported success (`0`); a
refused or timed-out connection (non-zero result) yields `False`; and a
raised socket-level error (e.g. name-resolution failure) is caught and
logged, with `False` returned, exactly in the raised case. -/
theorem c5_check_port (o : ProbeOutcome) :
    ((check_port o).value = true ↔ o = ProbeOutcome.result 0) ∧
      ((check_port o).loggedError = true ↔ o = ProbeOutcome.raised) := by
  cases o with
  | result e => simp [check_port]
  | raised => simp [check_port]

/-- C6: at startup, a port reported in use makes the process log an error
and exit with code 1 without starting the listener; a port reported free
makes it serve on that port. -/
theorem c6_startup_gate (p : Nat) :
    mainStartup p true = StartupAction.logErrorAndExit 1 ∧
      mainStartup p false = StartupAction.serve p :=
  ⟨rfl, rfl⟩

theorem natToDecAux_digits (fuel n : Nat) :
    ∀ b ∈ natToDecAux fuel n, isDigit b = true := by
  induction fuel generalizing n with
  | zero =>
    intro b hb
    simp [natToDecAux] at hb
  | succ f ih =>
    cases n with
    | zero =>
      intro b hb
      simp [natToDecAux] at hb
    | succ m =>
      intro b hb
      rw [natToDecAux] at hb
      rcases List.mem_cons.mp hb with h1 | h2
      · rw [h1]
        simp only [isDigit, decide_eq_true_eq]
        omega
      · exact ih _ b h2

theorem natToDec_digits (n : Nat) : ∀ b ∈ natToDec n, isDigit b = true := by
  intro b hb
  rw [natToDec] at hb
  by_cases h : n = 0
  · rw [if_pos h] at hb
    simp only [List.mem_singleton] at hb
    rw [hb]
    decide
  · rw [if_neg h] at hb
    exact natToDecAux_digits n n b (List.mem_reverse.mp hb)

theorem natToDec_ne_nil (n : Nat) : natToDec n ≠ [] := by
  rw [natToDec]
  by_cases h : n = 0
  · simp [h]
  · rw [if_neg h]
    cases n with
    | zero => exact absurd rfl h
    | succ m =>
      rw [natToDecAux]
      simp

theorem dropWhile_eq_self_of_digits {l : ByteStr}
    (h : ∀ b ∈ l, isDigit b = true) : l.dropWhile isPySpace = l := by
  cases l with
  | nil => rfl
  | cons b t =>
    rw [List.dropWhile_cons]
    have hb := h b (List.mem_cons_self _ _)
    have hps : isPySpace b = false := by
      simp only [isDigit, decide_eq_true_eq] at hb
      simp only [isPySpace, decide_eq_false_iff_not]
      omega
    rw [hps]
    simp

theorem pyIntStrip_of_digits {l : ByteStr} (h : ∀ b ∈ l, isDigit b = true) :
    pyIntStrip l = l := by
  rw [pyIntStrip, dropWhile_eq_self_of_digits h,
    dropWhile_eq_self_of_digits fun b hb => h b (List.mem_reverse.mp hb),
    List.reverse_reverse]

theorem intDigitsRest_of_digits {l : ByteStr}
    (h : ∀ b ∈ l, isDigit b = true) : intDigitsRest l = some l := by
  induction l with
  | nil => rfl
  | cons b t ih =>
    have hb := h b (List.mem_cons_self _ _)
    have hb95 : ¬b = 95 := by
      simp only [isDigit, decide_eq_true_eq] at hb
      omega
    rw [intDigitsRest.eq_def]
    dsimp only
    rw [if_neg hb95, if_pos hb,
      ih fun x hx => h x (List.mem_cons_of_mem _ hx)]
    rfl

theorem intDigits_of_digits {l : ByteStr} (hne : l ≠ [])
    (h : ∀ b ∈ l, isDigit b = true) : intDigits l = some l := by
  cases l with
  | nil => exact absurd rfl hne
  | cons b t =>
    rw [intDigits, if_pos (h b (List.mem_cons_self _ _)),
      intDigitsRest_of_digits fun x hx => h x (List.mem_cons_of_mem _ hx)]
    rfl

theorem foldr_natToDecAux (fuel n : Nat) (h : n ≤ fuel) :
    (natToDecAux fuel n).foldr (fun d acc => acc * 10 + (d - 48)) 0 = n := by
  induction fuel generalizing n with
  | zero =>
    have hn : n = 0 := by omega
    rw [hn]
    rfl
  | succ f ih =>
    cases n with
    | zero => rfl
    | succ m =>
      rw [natToDecAux, List.foldr_cons, ih ((m + 1) / 10) (by omega)]
      omega

theorem decValue_natToDec (n : Nat) : decValue (natToDec n) = n := by
  rw [natToDec]
  by_cases h : n = 0
  · rw [if_pos h, h]
    decide
  · rw [if_neg h, decValue, List.foldl_reverse]
    exact foldr_natToDecAux n n (le_refl n)

theorem pyInt_of_digits {l : ByteStr} (hne : l ≠ [])
    (h : ∀ b ∈ l, isDigit b = true) :
    pyInt l = some ((decValue l : Nat) : Int) := by
  rw [pyInt, pyIntStrip_of_digits h]
  cases l with
  | nil => exact absurd rfl hne
  | cons b t =>
    have hb := h b (List.mem_cons_self _ _)
    have h43 : ¬b = 43 := by
      simp only [isDigit, decide_eq_true_eq] at hb
      omega
    have h45 : ¬b = 45 := by
      simp only [isDigit, decide_eq_true_eq] at hb
      omega
    dsimp only
    rw [if_neg h43, if_neg h45, intDigits_of_digits (by simp) h]
    rfl

theorem pyInt_natToDec (n : Nat) : pyInt (natToDec n) = some (n : Int) := by
  rw [pyInt_of_digits (natToDec_ne_nil n) (natToDec_digits n),
    decValue_natToDec]

theorem char_toNat_valid (ch : Char) :
    ch.toNat < 55296 ∨ (57344 ≤ ch.toNat ∧ ch.toNat < 1114112) := ch.valid

theorem utf8Step_encodeChar (c : Nat)
    (hval : c < 55296 ∨ (57344 ≤ c ∧ c < 1114112)) (rest : List Nat) :
    utf8Step (utf8EncodeChar c).headI ((utf8EncodeChar c).tail ++ rest) =
      some (c, rest) := by
  have hns : ¬(55296 ≤ c ∧ c ≤ 57343) := by
    rcases hval with h | h <;> omega
  have hlt : c < 1114112 := by
    rcases hval with h | h <;> omega
  rw [utf8EncodeChar]
  by_cases h1 : c < 128
  · rw [if_pos h1]
    show utf8Step c rest = some (c, rest)
    rw [utf8Step.eq_def, if_pos h1]
  · rw [if_neg h1]
    by_cases h2 : c < 2048
    · rw [if_pos h2]
      show utf8Step (192 + c / 64) ((128 + c % 64) :: rest) = some (c, rest)
      rw [utf8Step.eq_def]
      have hb1 : ¬(192 + c / 64 < 128) := by omega
      have hb2 : 194 ≤ 192 + c / 64 ∧ 192 + c / 64 ≤ 223 := by omega
      rw [if_neg hb1, if_pos hb2]
      dsimp only
      have hc1 : isCont (128 + c % 64) = true := by
        simp only [isCont, decide_eq_true_eq]
        omega
      rw [if_pos hc1]
      have harith : (192 + c / 64 - 192) * 64 + (128 + c % 64 - 128) = c := by
        omega
      rw [harith]
    · rw [if_neg h2]
      by_cases h3 : c < 65536
      · rw [if_pos h3]
        show utf8Step (224 + c / 4096)
          ((128 + c / 64 % 64) :: (128 + c % 64) :: rest) = some (c, rest)
        rw [utf8Step.eq_def]
        have hb1 : ¬(224 + c / 4096 < 128) := by omega
        have hb2 : ¬(194 ≤ 224 + c / 4096 ∧ 224 + c / 4096 ≤ 223) := by omega
        have hb3 : 224 ≤ 224 + c / 4096 ∧ 224 + c / 4096 ≤ 239 := by omega
        rw [if_neg hb1, if_neg hb2, if_pos hb3]
        dsimp only
        have hc1 : (isCont (128 + c / 64 % 64) = true ∧
            isCont (128 + c % 64) = true) := by
          simp only [isCont, decide_eq_true_eq]
          omega
        rw [if_pos hc1]
        have harith : (224 + c / 4096 - 224) * 4096 +
            (128 + c / 64 % 64 - 128) * 64 + (128 + c % 64 - 128) = c := by
          omega
        rw [harith, if_pos ⟨by omega, hns⟩]
      · rw [if_neg h3]
        show utf8Step (240 + c / 262144) ((128 + c / 4096 % 64) ::
          (128 + c / 64 % 64) :: (128 + c % 64) :: rest) = some (c, rest)
        rw [utf8Step.eq_def]
        have hb1 : ¬(240 + c / 262144 < 128) := by omega
        have hb2 : ¬(194 ≤ 240 + c / 262144 ∧ 240 + c / 262144 ≤ 223) := by
          omega
        have hb3 : ¬(224 ≤ 240 + c / 262144 ∧ 240 + c / 262144 ≤ 239) := by
          omega
        have hb4 : 240 ≤ 240 + c / 262144 ∧ 240 + c / 262144 ≤ 244 := by
          omega
        rw [if_neg hb1, if_neg hb2, if_neg hb3, if_pos hb4]
        dsimp only
        have hc1 : (isCont (128 + c / 4096 % 64) = true ∧
            isCont (128 + c / 64 % 64) = true ∧
            isCont (128 + c % 64) = true) := by
          simp only [isCont, decide_eq_true_eq]
          omega
        rw [if_pos hc1]
        have harith : (240 + c / 262144 - 240) * 262144 +
            (128 + c / 4096 % 64 - 128) * 4096 +
            (128 + c / 64 % 64 - 128) * 64 + (128 + c % 64 - 128) = c := by
          omega
        rw [harith, if_pos ⟨by omega, by omega⟩]

theorem utf8EncodeChar_headI_tail (c : Nat) :
    utf8EncodeChar c = (utf8EncodeChar c).headI :: (utf8EncodeChar c).tail := by
  rw [utf8EncodeChar]
  by_cases h1 : c < 128
  · rw [if_pos h1]
    rfl
  · rw [if_neg h1]
    by_cases h2 : c < 2048
    · rw [if_pos h2]
      rfl
    · rw [if_neg h2]
      by_cases h3 : c < 65536
      · rw [if_pos h3]
        rfl
      · rw [if_neg h3]
        rfl

theorem utf8Decode_encodeChar (c : Nat)
    (hval : c < 55296 ∨ (57344 ≤ c ∧ c < 1114112)) (rest : List Nat) :
    utf8Decode (utf8EncodeChar c ++ rest) = (utf8Decode rest).map (c :: ·) := by
  rw [utf8EncodeChar_headI_tail c, List.cons_append, utf8Decode_cons,
    utf8Step_encodeChar c hval rest]

theorem utf8Decode_utf8Encode (s : String) :
    utf8Decode (utf8Encode s) = some (s.data.map Char.toNat) := by
  rw [utf8Encode]
  induction s.data with
  | nil => rfl
  | cons ch t ih =>
    rw [List.flatMap_cons, utf8Decode_encodeChar ch.toNat
      (char_toNat_valid ch) _, ih]
    rfl

theorem utf8EncodeChar_ne_nil (c : Nat) : utf8EncodeChar c ≠ [] := by
  rw [utf8EncodeChar]
  by_cases h1 : c < 128
  · simp [h1]
  · rw [if_neg h1]
    by_cases h2 : c < 2048
    · simp [h2]
    · rw [if_neg h2]
      by_cases h3 : c < 65536
      · simp [h3]
      · simp [h3]

theorem utf8Encode_eq_nil {s : String} (h : utf8Encode s = []) :
    s.data = [] := by
  cases hd : s.data with
  | nil => rfl
  | cons ch t =>
    rw [utf8Encode, hd, List.flatMap_cons] at h
    exact absurd (List.append_eq_nil.mp h).1 (utf8EncodeChar_ne_nil ch.toNat)

/-- C2: a request whose body is the UTF-8 encoding of a text `s`, with a
`Content-Length` header holding exactly that byte count, echoes `s` back
verbatim in the `body` field (round-trip identity); and a request whose
`Content-Length` header is absent or `"0"` gets `body = ""`. -/
theorem c2_body_echo {req : EchoRequest} {pr : ParseResult}
    (hup : pyUrlparse req.path = .ok pr) :
    (∀ s : String, req.rfile = utf8Encode s →
        (req.headers.find? fun p => p.1.map pyLower == bs "content-length").map
            Prod.snd = some (natToDec (utf8Encode s).length) →
        ∃ resp, handle_request req = .ok resp ∧
          resp.body = s.data.map Char.toNat) ∧
      (((req.headers.find? fun p =>
            p.1.map pyLower == bs "content-length") = none ∨
          (req.headers.find? fun p =>
              p.1.map pyLower == bs "content-length").map Prod.snd =
            some (bs "0")) →
        ∃ resp, handle_request req = .ok resp ∧ resp.body = []) := by
  constructor
  · intro s hrf hcl
    have hclv : contentLengthOf (lowerDict (pyDictOfMessage req.headers)) =
        some ((utf8Encode s).length : Int) := by
      rw [contentLengthOf.eq_def, headers_dictGet, hcl]
      dsimp only
      exact pyInt_natToDec _
    by_cases hL : 0 < (utf8Encode s).length
    · have hrun : handle_request req = .ok ⟨200, bs "application/json",
          req.command, pr.path, collapseQP (pyParseQs pr.query),
          lowerDict (pyDictOfMessage req.headers),
          s.data.map Char.toNat⟩ := by
        rw [handle_request.eq_def, hup]
        dsimp only
        rw [hclv]
        dsimp only
        rw [if_pos (by exact_mod_cast hL), hrf]
        rw [show ((utf8Encode s).length : Int).toNat = (utf8Encode s).length
          from by simp]
        rw [List.take_length, utf8Decode_utf8Encode]
      exact ⟨_, hrun, rfl⟩
    · have hL0 : (utf8Encode s).length = 0 := by omega
      have hd : s.data = [] :=
        utf8Encode_eq_nil (List.length_eq_zero.mp hL0)
      have hrun : handle_request req = .ok ⟨200, bs "application/json",
          req.command, pr.path, collapseQP (pyParseQs pr.query),
          lowerDict (pyDictOfMessage req.headers), []⟩ := by
        rw [handle_request.eq_def, hup]
        dsimp only
        rw [hclv, hL0]
        dsimp only
        rw [if_neg (by norm_num)]
      refine ⟨_, hrun, ?_⟩
      rw [hd]
      rfl
  · intro hdisj
    have hclv : contentLengthOf (lowerDict (pyDictOfMessage req.headers)) =
        some 0 := by
      rcases hdisj with h | h
      · rw [contentLengthOf.eq_def, headers_dictGet]
        rw [show (req.headers.find? fun p =>
            p.1.map pyLower == bs "content-length") = none from h]
        rfl
      · rw [contentLengthOf.eq_def, headers_dictGet, h]
        rfl
    have hrun : handle_request req = .ok ⟨200, bs "application/json",
        req.command, pr.path, collapseQP (pyParseQs pr.query),
        lowerDict (pyDictOfMessage req.headers), []⟩ := by
      rw [handle_request.eq_def, hup]
      dsimp only
      rw [hclv]
      dsimp only
      rw [if_neg (by norm_num)]
    exact ⟨_, hrun, rfl⟩

def c2req : EchoRequest :=
  ⟨bs "POST", bs "/raw", [(bs "Content-Length", bs "2")], utf8Encode "hi"⟩

def c2pr : ParseResult :=
  (pyUrlparse c2req.path).toOption.getD ⟨[], [], [], [], [], []⟩

def c2resp : EchoResponse :=
  (handle_request c2req).toOption.getD ⟨0, [], [], [], [], [], []⟩

theorem c2_witness :
    handle_request c2req = .ok c2resp ∧
      c2resp.body = "hi".data.map Char.toNat := by
  obtain ⟨resp, hresp, hbody⟩ :=
    (@c2_body_echo c2req c2pr (by rfl)).1 "hi" (by rfl) (by rfl)
  have he : c2resp = resp := by
    unfold c2resp
    rw [hresp]
    rfl
  exact ⟨by rw [he]; exact hresp, by rw [he]; exact hbody⟩

/-- C10: a present `Content-Length` header whose value is not an integer
literal makes `int(...)` raise an unhandled `ValueError` before any
response is sent; a value parsing to an integer `n ≤ 0` (including
negative values) yields a response whose `body` is empty. -/
theorem c10_content_length_fault {req : EchoRequest} {v : ByteStr} :
    (((req.headers.find? fun p => p.1.map pyLower == bs "content-length").map
          Prod.snd = some v) → pyInt v = none →
        handle_request req = .error HandlerFault.valueError) ∧
      (∀ n : Int,
        ((req.headers.find? fun p =>
            p.1.map pyLower == bs "content-length").map Prod.snd = some v) →
        pyInt v = some n → n ≤ 0 →
        ∀ resp, handle_request req = .ok resp → resp.body = []) := by
  constructor
  · intro hv hbad
    rw [handle_request.eq_def]
    cases hup : pyUrlparse req.path with
    | error e => rfl
    | ok pr =>
      dsimp only
      rw [show contentLengthOf (lowerDict (pyDictOfMessage req.headers)) =
          none from by
        rw [contentLengthOf.eq_def, headers_dictGet, hv]
        dsimp only
        exact hbad]
  · intro n hv hn hle resp hok
    obtain ⟨pr, n2, hup, hcl, _, _, _, _, _, _, hbody⟩ := handle_request_ok hok
    have hclv : contentLengthOf (lowerDict (pyDictOfMessage req.headers)) =
        some n := by
      rw [contentLengthOf.eq_def, headers_dictGet, hv]
      dsimp only
      exact hn
    rw [hclv] at hcl
    have hn2 : n2 = n := Option.some.inj hcl.symm
    rcases hbody with ⟨hpos, _⟩ | ⟨_, hb⟩
    · rw [hn2] at hpos
      omega
    · exact hb

def c10reqA : EchoRequest :=
  ⟨bs "GET", bs "/", [(bs "Content-Length", bs "zz")], []⟩

def c10reqB : EchoRequest :=
  ⟨bs "GET", bs "/", [(bs "Content-Length", bs "-3")], utf8Encode "hi"⟩

def c10respB : EchoResponse :=
  (handle_request c10reqB).toOption.getD ⟨0, [], [], [], [], [], []⟩

theorem c10_witness :
    handle_request c10reqA = .error HandlerFault.valueError ∧
      handle_request c10reqB = .ok c10respB ∧ c10respB.body = [] := by
  refine ⟨?_, by rfl, ?_⟩
  · exact (@c10_content_length_fault c10reqA (bs "zz")).1 (by rfl) (by rfl)
  · exact (@c10_content_length_fault c10reqB (bs "-3")).2 (-3) (by rfl)
      (by rfl) (by decide) c10respB (by rfl)

/-- C7: a positive `Content-Length` with body bytes that are not valid
UTF-8 makes `decode('utf-8')` raise an unhandled `UnicodeDecodeError`: no
200 response is produced for that request, and the fault aborts only that
connection — the serving loop still produces the responses of all other
connections unchanged. -/
theorem c7_invalid_utf8_fault {req : EchoRequest} {pr : ParseResult}
    {v : ByteStr} {n : Int} (hup : pyUrlparse req.path = .ok pr)
    (hv : (req.headers.find? fun p =>
        p.1.map pyLower == bs "content-length").map Prod.snd = some v)
    (hn : pyInt v = some n) (hpos : 0 < n)
    (hbad : utf8Decode (req.rfile.take n.toNat) = none) :
    handle_request req = .error HandlerFault.unicodeDecodeError ∧
      ∀ pre post, serveSequential (pre ++ req :: post) =
        serveSequential pre ++ none :: serveSequential post := by
  have hclv : contentLengthOf (lowerDict (pyDictOfMessage req.headers)) =
      some n := by
    rw [contentLengthOf.eq_def, headers_dictGet, hv]
    dsimp only
    exact hn
  have hmain : handle_request req = .error HandlerFault.unicodeDecodeError := by
    rw [handle_request.eq_def, hup]
    dsimp only
    rw [hclv]
    dsimp only
    rw [if_pos hpos, hbad]
  refine ⟨hmain, fun pre post => ?_⟩
  simp [serveSequential, List.map_append, hmain, Except.toOption]

def c7req : EchoRequest :=
  ⟨bs "POST", bs "/", [(bs "Content-Length", bs "1")], [255]⟩

def c7pr : ParseResult :=
  (pyUrlparse c7req.path).toOption.getD ⟨[], [], [], [], [], []⟩

theorem c7_witness :
    handle_request c7req = .error HandlerFault.unicodeDecodeError ∧
      serveSequential [c7req] = [none] := by
  have h := @c7_invalid_utf8_fault c7req c7pr (bs "1") 1 (by rfl) (by rfl)
    (by rfl) (by decide) (by rfl)
  exact ⟨h.1, by simpa using h.2 [] []⟩

theorem mem_of_mem_takeWhile {p : Nat → Bool} {l : ByteStr} {a : Nat}
    (h : a ∈ l.takeWhile p) : a ∈ l := by
  induction l with
  | nil => simp at h
  | cons b t ih =>
    rw [List.takeWhile_cons] at h
    by_cases hb : p b = true
    · rw [if_pos hb] at h
      rcases List.mem_cons.mp h with h1 | h2
      · rw [h1]
        exact List.mem_cons_self _ _
      · exact List.mem_cons_of_mem _ (ih h2)
    · rw [if_neg hb] at h
      simp at h

theorem splitOnFirst_of_not_mem {sep : Nat} {l : ByteStr} (h : sep ∉ l) :
    splitOnFirst sep l = (l, none) := by
  induction l with
  | nil => rfl
  | cons b t ih =>
    have hb : ¬b = sep := fun hh => h (hh ▸ List.mem_cons_self _ _)
    rw [splitOnFirst, if_neg hb,
      ih fun hm => h (List.mem_cons_of_mem _ hm)]

theorem splitOnFirst_fst (sep : Nat) (l : ByteStr) :
    (splitOnFirst sep l).1 = l.takeWhile (fun b => !(b == sep)) := by
  induction l with
  | nil => rfl
  | cons b t ih =>
    rw [splitOnFirst, List.takeWhile_cons]
    by_cases hb : b = sep
    · rw [if_pos hb]
      simp [hb]
    · rw [if_neg hb]
      rw [if_pos (show (!(b == sep)) = true by simp [hb])]
      rw [ih]

theorem splitScheme_slash {url : ByteStr} (h : url.headD 0 = 47) :
    splitScheme url = ([], url) := by
  rw [splitScheme]
  cases hf : url.findIdx? (· == 58) with
  | none => rfl
  | some i =>
    dsimp only
    rw [if_neg]
    rintro ⟨-, -, ha⟩
    rw [h] at ha
    exact absurd ha (by decide)

theorem pyUrlsplit_origin {url : ByteStr} (hslash : url.headD 0 = 47)
    (h2 : url.take 2 ≠ [47, 47])
    (hclean : ∀ b ∈ url, b ≠ 9 ∧ b ≠ 13 ∧ b ≠ 10) (hnofrag : 35 ∉ url) :
    pyUrlsplit url = .ok ⟨[], [], (splitOnFirst 63 url).1,
      ((splitOnFirst 63 url).2).getD [], []⟩ := by
  have hfil : url.filter (fun b => b ≠ 9 ∧ b ≠ 13 ∧ b ≠ 10) = url := by
    rw [List.filter_eq_self]
    intro a ha
    simpa using hclean a ha
  rw [pyUrlsplit]
  simp only [hfil, splitScheme_slash hslash]
  rw [if_neg h2, if_neg (by simp)]
  rw [splitOnFirst_of_not_mem hnofrag]
  rfl

theorem pyUrlparse_origin {url : ByteStr} (hslash : url.headD 0 = 47)
    (h2 : url.take 2 ≠ [47, 47])
    (hclean : ∀ b ∈ url, b ≠ 9 ∧ b ≠ 13 ∧ b ≠ 10) (hnofrag : 35 ∉ url)
    (hnosemi : 59 ∉ url) :
    pyUrlparse url = .ok ⟨[], [], url.takeWhile (fun b => !(b == 63)), [],
      ((splitOnFirst 63 url).2).getD [], []⟩ := by
  rw [pyUrlparse.eq_def, pyUrlsplit_origin hslash h2 hclean hnofrag]
  dsimp only
  rw [if_neg]
  · rw [splitOnFirst_fst]
  · rintro ⟨-, hmem⟩
    rw [splitOnFirst_fst] at hmem
    exact hnosemi (mem_of_mem_takeWhile hmem)

def c3exreq : EchoRequest := ⟨bs "GET", bs "/user;v=1?id=2", [], []⟩

def c3exresp : EchoResponse :=
  (handle_request c3exreq).toOption.getD ⟨0, [], [], [], [], [], []⟩

/-- C3 counterexample: for the request path `/user;v=1?id=2`, the `endpoint`
field is `/user`, not `/user;v=1` (the path with only the query string
stripped): `urlparse` also removes the `;parameters` suffix of the last
path segment.  The method and status parts of the claim do hold here. -/
theorem c3_counterexample :
    handle_request c3exreq = .ok c3exresp ∧
      c3exresp.endpoint = bs "/user" ∧ c3exresp.endpoint ≠ bs "/user;v=1" := by
  refine ⟨by rfl, by rfl, by decide⟩

/-- C3 (amended): for every method and every origin-form request path
(starting with `/`, not `//`, free of tab/CR/LF, with no `#` and no `;`),
a request the handler completes on is answered with status 200, the
`method` field equal to the request verb, and the `endpoint` field equal
to the path truncated at the first `?` (the query string stripped).  For
paths with `;` in the last segment, a fragment, or an absolute-form
target, `urlparse` strips more than the query string, and the handler
completes unless `Content-Length` or the body is malformed. -/
theorem c3_method_status_endpoint {req : EchoRequest} {resp : EchoResponse}
    (hslash : req.path.headD 0 = 47) (h2 : req.path.take 2 ≠ [47, 47])
    (hclean : ∀ b ∈ req.path, b ≠ 9 ∧ b ≠ 13 ∧ b ≠ 10)
    (hnofrag : 35 ∉ req.path) (hnosemi : 59 ∉ req.path)
    (hok : handle_request req = .ok resp) :
    resp.status = 200 ∧ resp.method = req.command ∧
      resp.endpoint = req.path.takeWhile (fun b => !(b == 63)) := by
  obtain ⟨pr, n, hup, _, hst, _, hm, hep, _, _, _⟩ := handle_request_ok hok
  rw [pyUrlparse_origin hslash h2 hclean hnofrag hnosemi] at hup
  have hpr := Except.ok.inj hup
  refine ⟨hst, hm, ?_⟩
  rw [hep, ← hpr]

def c3wreq : EchoRequest := ⟨bs "PATCH", bs "/a/b?x=1&y=2", [], []⟩

def c3wresp : EchoResponse :=
  (handle_request c3wreq).toOption.getD ⟨0, [], [], [], [], [], []⟩

theorem c3_witness :
    c3wresp.status = 200 ∧ c3wresp.method = bs "PATCH" ∧
      c3wresp.endpoint = bs "/a/b" := by
  have h := @c3_method_status_endpoint c3wreq c3wresp (by rfl) (by decide)
    (by decide) (by decide) (by decide) (by rfl)
  refine ⟨h.1, h.2.1, ?_⟩
  rw [h.2.2]
  decide

end Echo4Http
